import Mathlib

/-!
Verification development for the round-driven block-production and notarization
state machine of the 0chain repository.

The Go sources are shallowly embedded as pure Lean functions:

* `round.Round`, its `timeoutCounter` and its operations
  (`AddVRFShare`, `AddNotarizedBlock`, `addProposedBlock`, `Restart`,
  `IsFinalized`, `IncrementTimeoutCount`, `addVote`, ...) from
  `chaincore/round/round_entity.go`;
* `Chain.GetFinalizedBlockFromSharders` from
  `chaincore/chain/finalized_block_fetcher.go`;
* `Chain.CollectBlocksForVerification` and `Chain.GenerateRoundBlock` from
  `miner/protocol_round.go`;
* `Chain.computeRoundRandomSeed` from `miner/protocol_bls.go`.

Conventions: Go `int`/`int64` become `Int` (none of the verified operations can
overflow 64 bits on the inputs the theorems quantify over), Go maps become
association lists whose key sets the operations keep duplicate-free, Go slices
become `List`, and in-place mutation becomes explicit state passing.  Functions
of the repository that are only callers or whose packages are not part of the
source slice (`block.MergeVerificationTickets`, `miner.Round.IsVRFComplete`,
Go's `math/rand` generator, the hash oracle) are either parameters of the
embedding or are modelled from the spec; each such place is marked.
-/

namespace ZeroChain

/-- A block, restricted to the fields the round machinery reads: content hash,
round number, round rank (lower is better), chain weight (the Go field is a
`float64`; only order comparisons on it occur in the embedded code, so it is
modelled by `Int`, which preserves every comparison outcome), the collected
verification-ticket signer ids, and the notarized flag. -/
structure Block where
  hash : String
  round : Int
  roundRank : Int
  chainWeight : Int
  verificationTickets : List String
  isNotarized : Bool
deriving Repr, DecidableEq, Inhabited

/-- Adds one verification ticket, idempotent on the signer id. -/
def addTicket (ts : List String) (t : String) : List String :=
  if ts.contains t then ts else ts ++ [t]

/-- Modelled from the spec: `block.MergeVerificationTickets` lives in the
`block` package, which is not part of the source slice; per spec §4.5 adding a
ticket is idempotent on the signer id, so merging folds `addTicket`.  Only the
`verificationTickets` field changes. -/
def Block.mergeVerificationTickets (blk : Block) (ts : List String) : Block :=
  { blk with verificationTickets := ts.foldl addTicket blk.verificationTickets }

/-- Source `block.SetBlockNotarized`: marks the block notarized. -/
def Block.setBlockNotarized (b : Block) : Block :=
  { b with isNotarized := true }

/-- A VRF share; `partyKey` is `share.party.GetKey()` in the source. -/
structure VRFShare where
  partyKey : String
  share : String
deriving Repr, DecidableEq, Inhabited

/-- Source `timeoutCounter`: current round timeout `count`, the vote tally
`timeoutVotes` (timeout number to number of votes) and the set `votersVoted`
of node ids that already voted. -/
structure TimeoutCounter where
  count : Int
  timeoutVotes : List (Int × Nat)
  votersVoted : List String
deriving Repr, DecidableEq, Inhabited

/-- Source `timeoutCounter.resetVotes`. -/
def TimeoutCounter.resetVotes (tc : TimeoutCounter) : TimeoutCounter :=
  { tc with timeoutVotes := [], votersVoted := [] }

/-- Source `timeoutCounter.isVoted`. -/
def TimeoutCounter.isVoted (tc : TimeoutCounter) (id : String) : Bool :=
  tc.votersVoted.contains id

/-- Increment the tally of `num` (`tc.timeoutVotes[num]++` on a Go map whose
missing keys read as zero). -/
def bumpVote : List (Int × Nat) → Int → List (Int × Nat)
  | [], num => [(num, 1)]
  | (k, v) :: rest, num =>
      if k = num then (k, v + 1) :: rest else (k, v) :: bumpVote rest num

/-- Source `timeoutCounter.addVote`: drop the vote if this voter already
voted, otherwise tally it and pin the voter. -/
def TimeoutCounter.addVote (tc : TimeoutCounter) (id : String) (num : Int) :
    TimeoutCounter :=
  if tc.isVoted id then tc
  else
    { tc with
      timeoutVotes := bumpVote tc.timeoutVotes num
      votersVoted := tc.votersVoted ++ [id] }

/-- The vote scan of `timeoutCounter.IncrementTimeoutCount`: fold the tally,
keeping `(mostVotes, mostTimeout)` and replacing it whenever an entry has
strictly more votes, or equally many votes and a larger timeout number.  Go
iterates the map in arbitrary order; the fold result is order-independent
because the replacement test is a strict lexicographic comparison. -/
def selectWinner : List (Int × Nat) → Nat × Int → Nat × Int
  | [], best => best
  | (k, v) :: rest, (mostVotes, mostTimeout) =>
      selectWinner rest
        (if v > mostVotes ∨ (v = mostVotes ∧ k > mostTimeout) then (v, k)
         else (mostVotes, mostTimeout))

/-- Source `timeoutCounter.IncrementTimeoutCount`: scan the tally seeded with
`(0, tc.count)`, reset the votes, then either increment the count or jump to
the winning timeout number plus one. -/
def TimeoutCounter.IncrementTimeoutCount (tc : TimeoutCounter) :
    TimeoutCounter :=
  let best := selectWinner tc.timeoutVotes (0, tc.count)
  let tc1 := tc.resetVotes
  if best.2 ≤ tc.count then { tc1 with count := tc.count + 1 }
  else { tc1 with count := best.2 + 1 }

/-- Round state constants of `chaincore/round/round_entity.go` (an iota). -/
def RoundShareVRF : Int := 0

def RoundVRFComplete : Int := 1

def RoundStateFinalizing : Int := 6

def RoundStateFinalized : Int := 7

/-- Source `round.Round`, restricted to the fields the embedded operations
touch.  `shares` is the Go map keyed by `share.party.GetKey()`; the operations
keep its key list duplicate-free.  The `vrfStartTime` field (wall-clock time)
is not modelled. -/
structure Round where
  number : Int
  randomSeed : Int
  hasRandomSeed : Bool
  block : Option Block
  blockHash : String
  vrfOutput : String
  minerPerm : Option (List Nat)
  state : Int
  proposedBlocks : List Block
  notarizedBlocks : List Block
  shares : List (String × VRFShare)
  softTimeoutCount : Int
  tc : TimeoutCounter
deriving Repr, DecidableEq, Inhabited

/-- Source `Round.getState`. -/
def Round.getState (r : Round) : Int := r.state

/-- Source `Round.setState`: only moves the state forward. -/
def Round.setState (r : Round) (s : Int) : Round :=
  if s > r.state then { r with state := s } else r

/-- Source `Round.ResetState`: sets the state unconditionally. -/
def Round.ResetState (r : Round) (s : Int) : Round :=
  { r with state := s }

/-- Source `Round.SetRandomSeed`: a no-op once a seed is held; otherwise
store the seed, advance to `RoundVRFComplete`, set the flag and drop the
miner permutation. -/
def Round.SetRandomSeed (r : Round) (seed : Int) : Round :=
  if r.hasRandomSeed then r
  else
    let r1 := ({ r with randomSeed := seed }).setState RoundVRFComplete
    { r1 with hasRandomSeed := true, minerPerm := none }

/-- Source `Round.AddVRFShare`: the Go body first tests
`len(r.getVRFShares()) >= threshold` and returns `true` there (although its
log line reads "Returning false."), then rejects a duplicate party with
`false`, and otherwise records the share and returns `true`. -/
def Round.AddVRFShare (r : Round) (share : VRFShare) (threshold : Int) :
    Round × Bool :=
  if (r.shares.length : Int) ≥ threshold then (r, true)
  else if (r.shares.lookup share.partyKey).isSome then (r, false)
  else
    let r1 := r.setState RoundShareVRF
    ({ r1 with shares := r1.shares ++ [(share.partyKey, share)] }, true)

/-- Source `Round.AddAdditionalVRFShare`: like the tail of `AddVRFShare`
without the threshold gate. -/
def Round.AddAdditionalVRFShare (r : Round) (share : VRFShare) :
    Round × Bool :=
  if (r.shares.lookup share.partyKey).isSome then (r, false)
  else
    let r1 := r.setState RoundShareVRF
    ({ r1 with shares := r1.shares ++ [(share.partyKey, share)] }, true)

/-- Comparison used for `proposedBlocks`: Go sorts with `sort.SliceStable`
and the strict comparison `RoundRank <`; a stable sort under that comparison
is exactly the stable sort under the non-strict `roundRank ≤`. -/
def rankLE (a b : Block) : Bool := a.roundRank ≤ b.roundRank

/-- Comparison used for `notarizedBlocks`: Go sorts with `sort.Slice` and
`ChainWeight >` (descending). -/
def weightGE (a b : Block) : Bool := b.chainWeight ≤ a.chainWeight

/-- Source `Round.addProposedBlock`: return the already-stored block when the
hash is present; otherwise append and re-sort by round rank ascending.
`List.mergeSort` is a stable sort, as Go's `sort.SliceStable` is. -/
def Round.addProposedBlock (r : Round) (b : Block) : Round × Block × Bool :=
  match r.proposedBlocks.find? (fun blk => blk.hash == b.hash) with
  | some blk => (r, blk, false)
  | none =>
      ({ r with proposedBlocks := (r.proposedBlocks ++ [b]).mergeSort rankLE },
       b, true)

/-- Source `Round.AddProposedBlock` (the lock-taking wrapper). -/
def Round.AddProposedBlock (r : Round) (b : Block) : Round × Block × Bool :=
  r.addProposedBlock b

/-- Replace the first block whose hash is `h` by `m` (the Go loop merges the
incoming tickets into the matching stored block in place). -/
def replaceFirstHash : List Block → String → Block → List Block
  | [], _, _ => []
  | x :: xs, h, m =>
      if x.hash == h then m :: xs else x :: replaceFirstHash xs h m

/-- Erase the first block of rank `rk`. -/
def eraseFirstRankEq : List Block → Int → List Block
  | [], _ => []
  | x :: xs, rk =>
      if x.roundRank == rk then xs else x :: eraseFirstRankEq xs rk

/-- Erase the last block of rank `rk` — the Go loop keeps overwriting
`found`, so the index it removes is the last matching one. -/
def removeLastRankEq (l : List Block) (rk : Int) : List Block :=
  (eraseFirstRankEq l.reverse rk).reverse

/-- Source `Round.AddNotarizedBlock`.  The block is first run through
`addProposedBlock` (adopting the already-stored proposed block when the hash
is known).  Then: if a notarized block with the same hash exists, merge the
incoming verification tickets into it and return it with `false`; otherwise
remove the (last) stored block of equal rank, mark the block notarized,
update `r.Block` when the new block has a strictly better rank, append, and
re-sort by chain weight descending.  Go's `sort.Slice` is unstable, so among
equal weights the stored order is unspecified; the embedding fixes the stable
order, and every property proved below is invariant under permutations of
equal-weight blocks.  Pointer aliasing between the proposed and notarized
lists is not modelled: the properties proved depend only on hash, rank and
weight data, which the source never mutates through either alias. -/
def Round.AddNotarizedBlock (r0 : Round) (b0 : Block) : Round × Block × Bool :=
  let rp := r0.addProposedBlock b0
  let r := rp.1
  let b := rp.2.1
  match r.notarizedBlocks.find? (fun blk => blk.hash == b.hash) with
  | some blk =>
      let merged := blk.mergeVerificationTickets b.verificationTickets
      ({ r with notarizedBlocks := replaceFirstHash r.notarizedBlocks b.hash merged },
       merged, false)
  | none =>
      let nbs := removeLastRankEq r.notarizedBlocks b.roundRank
      let bN := b.setBlockNotarized
      let best : Option Block :=
        match r.block with
        | none => some bN
        | some cb => if cb.roundRank > bN.roundRank then some bN else some cb
      ({ r with
          notarizedBlocks := (nbs ++ [bN]).mergeSort weightGE
          block := best },
       bN, true)

/-- Source `Round.Finalize`: advance to `RoundStateFinalized` and pin the
finalized block. -/
def Round.Finalize (r : Round) (b : Block) : Round :=
  let r1 := r.setState RoundStateFinalized
  { r1 with block := some b, blockHash := b.hash }

/-- Source `Round.isFinalized`. -/
def Round.isFinalized (r : Round) : Bool :=
  r.getState == RoundStateFinalized || r.number == 0

/-- Source `Round.IsFinalized`. -/
def Round.IsFinalized (r : Round) : Bool := r.isFinalized

/-- Source `Round.initialize` (the name carries a `Round.` qualifier here and
a different spelling because the bare source name is unavailable): empty the
notarized and proposed lists and the share map, clear the seed flag and zero
the seed. -/
def Round.reinit (r : Round) : Round :=
  { r with
    notarizedBlocks := []
    proposedBlocks := []
    shares := []
    hasRandomSeed := false
    randomSeed := 0 }

/-- Source `Round.Restart`: re-initialize, drop the best block, zero the soft
timeout count and reset the state to `RoundShareVRF`.  The embedded
`timeoutCounter` is untouched. -/
def Round.Restart (r : Round) : Round :=
  let r1 := r.reinit
  let r2 := { r1 with block := none }
  let r3 := { r2 with softTimeoutCount := 0 }
  r3.ResetState RoundShareVRF

/-- Source `Round.AddTimeoutVote`. -/
def Round.AddTimeoutVote (r : Round) (num : Int) (id : String) : Round :=
  { r with tc := r.tc.addVote id num }

/-- Source `Round.IncrementTimeoutCount` (promoted from the embedded
counter). -/
def Round.IncrementTimeoutCount (r : Round) : Round :=
  { r with tc := r.tc.IncrementTimeoutCount }

/-- A fresh round object as `round.Provider` plus `NewRound` build it: all
collections empty, seed absent, state `RoundShareVRF` (= 0, the zero value of
the Go field), vote maps created empty. -/
def Round.new (n : Int) : Round :=
  { number := n
    randomSeed := 0
    hasRandomSeed := false
    block := none
    blockHash := ""
    vrfOutput := ""
    minerPerm := none
    state := RoundShareVRF
    proposedBlocks := []
    notarizedBlocks := []
    shares := []
    softTimeoutCount := 0
    tc := { count := 0, timeoutVotes := [], votersVoted := [] } }

/-! ### Finalized-block fetcher (`GetFinalizedBlockFromSharders`) -/

/-- The handler of `GetFinalizedBlockFromSharders` folded over the sharder
responses in arrival order: a response whose hash is already present bumps
that entry's `consensus`, otherwise the response is appended with consensus
one. -/
def aggregateFB (responses : List Block) : List (Block × Nat) :=
  responses.foldl
    (fun fbs fb =>
      if fbs.any (fun p => p.1.hash == fb.hash) then
        fbs.map (fun p => if p.1.hash == fb.hash then (p.1, p.2 + 1) else p)
      else fbs ++ [(fb, 1)])
    []

/-- The comparison closure passed to `sort.Slice` in
`GetFinalizedBlockFromSharders`, verbatim:
`fbs[i].Round >= fbs[j].Round || fbs[i].consensus > fbs[j].consensus`.
Note it is not a strict weak ordering (it is reflexive). -/
def fbLess (a b : Block × Nat) : Bool :=
  b.1.round ≤ a.1.round || b.2 < a.2

/-- One step of Go's insertion sort: insert `x` into the already-processed
prefix, held in reverse order, moving it left while `less x y` holds against
the current left neighbour `y`. -/
def goInsertStep (less : α → α → Bool) (x : α) : List α → List α
  | [] => [x]
  | y :: ys => if less x y then y :: goInsertStep less x ys else x :: y :: ys

/-- Go's `insertionSort` (the algorithm `sort.Slice` runs on slices shorter
than 12, and the exact swap semantics of its inner loop for any comparison
function, valid or not), with the processed prefix kept reversed. -/
def goInsertionSortRev (less : α → α → Bool) : List α → List α → List α
  | acc, [] => acc
  | acc, x :: xs => goInsertionSortRev less (goInsertStep less x acc) xs

/-- Go's `insertionSort` on a list. -/
def goInsertionSort (less : α → α → Bool) (l : List α) : List α :=
  (goInsertionSortRev less [] l).reverse

/-- Source `Chain.GetFinalizedBlockFromSharders`, with the network replaced
by the list of responses the handler receives in arrival order: aggregate by
hash, sort with the `fbLess` closure, return the first entry (`none` models
the `no FB given` error on an empty response set). -/
def GetFinalizedBlockFromSharders (responses : List Block) : Option Block :=
  let finalizedBlocks := goInsertionSort fbLess (aggregateFB responses)
  match finalizedBlocks with
  | [] => none
  | x :: _ => some x.1

/-! ### Verification scheduler (`CollectBlocksForVerification`) -/

/-- State of the per-round collector loop: the `sendVerification` flag, the
accumulation buffer (`blocks`), and the round's current best block
(`r.Block`). -/
structure CollectorState where
  sendVerification : Bool
  buffer : List Block
  best : Option Block
deriving Repr, DecidableEq, Inhabited

/-- The two events the collector multiplexes besides cancellation: the
block-time timer firing, and a candidate block arriving on the
blocks-to-verify channel. -/
inductive CollectorEvent where
  | timer : CollectorEvent
  | arrive (b : Block) : CollectorEvent
deriving Repr, DecidableEq

/-- The sweep the timer branch runs over the sorted buffer: verify blocks in
order until the first success.  Returns the first successfully verified block
(if any) and the list of blocks on which verification was attempted, in
order.  `verify` abstracts the outcome of `VerifyRoundBlock`. -/
def verifySweep (verify : Block → Bool) : List Block → Option Block × List Block
  | [] => (none, [])
  | b :: bs =>
      if verify b then (some b, [b])
      else
        let rest := verifySweep verify bs
        (rest.1, b :: rest.2)

/-- Source `Round.GetBlocksByRank`: stable sort by round rank ascending. -/
def GetBlocksByRank (blocks : List Block) : List Block :=
  blocks.mergeSort rankLE

/-- One iteration of the `CollectBlocksForVerification` select loop.  Timer:
set `sendVerification`, sort the buffer by rank and verify in that order up
to the first success, which becomes `r.Block` (`verifyAndSend` assigns
`r.Block = b` only on success).  Arrival with `sendVerification` set: verify
immediately exactly when there is no best block or the rank is strictly
better; otherwise drop.  Arrival before the timer: append to the buffer.  The
second component lists the blocks on which verification was attempted. -/
def collectorStep (verify : Block → Bool) (s : CollectorState) :
    CollectorEvent → CollectorState × List Block
  | .timer =>
      let sorted := GetBlocksByRank s.buffer
      let swept := verifySweep verify sorted
      ({ s with
          sendVerification := true
          buffer := sorted
          best := match swept.1 with
            | some b => some b
            | none => s.best },
       swept.2)
  | .arrive b =>
      if s.sendVerification then
        if (match s.best with
            | none => true
            | some cb => b.roundRank < cb.roundRank) then
          if verify b then ({ s with best := some b }, [b]) else (s, [b])
        else (s, [])
      else ({ s with buffer := s.buffer ++ [b] }, [])

/-! ### Round random seed (`computeRoundRandomSeed`) -/

/-- Value of one hexadecimal digit, the three character classes
(`0`–`9`, `a`–`f`, `A`–`F`, here by their code points 48–57, 97–102, 65–70)
that `strconv.ParseUint` with base 16 accepts. -/
def hexDigitVal (c : Char) : Option Nat :=
  if 48 ≤ c.toNat ∧ c.toNat ≤ 57 then some (c.toNat - 48)
  else if 97 ≤ c.toNat ∧ c.toNat ≤ 102 then some (c.toNat - 87)
  else if 65 ≤ c.toNat ∧ c.toNat ≤ 70 then some (c.toNat - 55)
  else none

/-- Digit loop of `strconv.ParseUint(s, 16, 64)`: `n = n*16 + d` per digit.
The overflow cutoffs of the Go loop cannot fire on at most 16 digits. -/
def parseHexNat : List Char → Nat → Option Nat
  | [], acc => some acc
  | c :: cs, acc =>
      match hexDigitVal c with
      | some d => parseHexNat cs (acc * 16 + d)
      | none => none

/-- `strconv.ParseUint(rbo[0:16], 16, 64)`: Go panics when slicing a string
shorter than 16 bytes and `ParseUint` rejects non-hex characters; both
failure modes are `none`. -/
def parseUint16Hex (s : String) : Option Nat :=
  if s.length < 16 then none else parseHexNat (s.toList.take 16) 0

/-- The Go conversion `int64(useed)` of a `uint64` value: two's-complement
reinterpretation. -/
def int64OfUInt64 (u : Nat) : Int :=
  if u < 2 ^ 63 then (u : Int) else (u : Int) - 2 ^ 64

/-- Source `Chain.computeRoundRandomSeed`, reduced to the seed it hands to
`startRound`.  In DKG mode the seed is the `int64` reinterpretation of the
`uint64` parsed from the first 16 hex characters of `rbo` (a failed parse
panics in Go, modelled by `none`).  Otherwise, with a previous round that is
VRF-complete the seed is the first `Int63` drawn from Go's `math/rand`
generator seeded with the previous round's seed — the generator is external
code, abstracted by the parameter `goRandInt63` — and with a previous round
that is not VRF-complete the seed stays zero; with no previous round the
function returns without starting the round.  `isVRFComplete` abstracts
`miner.Round.IsVRFComplete`, whose package is not part of the source
slice. -/
def computeRoundRandomSeed (isDkgEnabled : Bool) (goRandInt63 : Int → Int)
    (isVRFComplete : Round → Bool) (pr : Option Round) (rbo : String) :
    Option Int :=
  if isDkgEnabled then
    match parseUint16Hex rbo with
    | some useed => some (int64OfUInt64 useed)
    | none => none
  else
    match pr with
    | some p => some (if isVRFComplete p then goRandInt63 p.randomSeed else 0)
    | none => none

/-! ### Block generation (`GenerateRoundBlock`) -/

/-- Outcome of one `mc.GenerateBlock` call. -/
inductive GenResult where
  | ok : GenResult
  | insufficientTxns : GenResult
  | otherError : GenResult
deriving Repr, DecidableEq

/-- Environment of `GenerateRoundBlock`: the values successive reads of
`mc.CurrentRound` and `transaction.TransactionCount` observe (both fields are
written concurrently by other tasks) and the outcomes of successive
`mc.GenerateBlock` calls.  Each stream is indexed by its own read counter. -/
structure GenEnv where
  curRound : Nat → Int
  txnCount : Nat → Int
  gen : Nat → GenResult

/-- Result of the embedded `GenerateRoundBlock` loop. -/
inductive GenOutcome where
  | block : GenOutcome
  | roundMismatch : GenOutcome
  | otherError : GenOutcome
deriving Repr, DecidableEq

/-- The inner backoff loop of `GenerateRoundBlock` after `InsufficientTxns`:
break when the transaction count moved away from the snapshot, abort when the
current round passed the block's round `R`, otherwise sleep `delay`
milliseconds, then double the delay, capping it at 1000 ms.  Arguments after
the snapshot: fuel, current delay, round-read counter, txn-read counter.
Returns `(txnChanged, roundReads, txnReads, sleeps)`; `none` is fuel
exhaustion. -/
def insufficientWait (R : Int) (env : GenEnv) (snap : Int) :
    Nat → Nat → Nat → Nat → Option (Bool × Nat × Nat × List Nat)
  | 0, _, _, _ => none
  | fuel + 1, delay, i, j =>
      if env.txnCount j ≠ snap then some (true, i, j + 1, [])
      else if env.curRound i > R then some (false, i + 1, j + 1, [])
      else
        match insufficientWait R env snap fuel (min (2 * delay) 1000) (i + 1) (j + 1) with
        | none => none
        | some (c, i2, j2, sleeps) => some (c, i2, j2, delay :: sleeps)

/-- Source `Chain.GenerateRoundBlock`, reduced to its retry loop (the prelude
that fails when the prior round or the block to extend is missing returns
`otherError` before this loop and is outside the verified property).  Each
iteration: abort with `RoundMismatch` when `mc.CurrentRound > R`; snapshot
the transaction count; generate; on success re-check the round (abort with
`RoundMismatch`, else the block is added and sent); on `InsufficientTxns`
run the backoff loop with the delay reset to 128 ms and retry; any other
error is returned.  Returns the outcome, the final three read counters, and
the sleeps performed; `none` is fuel exhaustion. -/
def GenerateRoundBlock (R : Int) (env : GenEnv) :
    Nat → Nat → Nat → Nat → Option (GenOutcome × Nat × Nat × Nat × List Nat)
  | 0, _, _, _ => none
  | fuel + 1, i, j, k =>
      if env.curRound i > R then some (.roundMismatch, i + 1, j, k, [])
      else
        let snap := env.txnCount j
        match env.gen k with
        | .ok =>
            if env.curRound (i + 1) > R then
              some (.roundMismatch, i + 2, j + 1, k + 1, [])
            else some (.block, i + 2, j + 1, k + 1, [])
        | .otherError => some (.otherError, i + 1, j + 1, k + 1, [])
        | .insufficientTxns =>
            match insufficientWait R env snap fuel 128 (i + 1) (j + 1) with
            | none => none
            | some (false, i2, j2, sleeps) =>
                some (.roundMismatch, i2, j2, k + 1, sleeps)
            | some (true, i2, j2, sleeps) =>
                match GenerateRoundBlock R env fuel i2 j2 (k + 1) with
                | none => none
                | some (out, i3, j3, k3, sleeps2) =>
                    some (out, i3, j3, k3, sleeps ++ sleeps2)

/-! ### Reachable round states -/

/-- States of a `Round` object reachable through the operations of the round
package, starting from a freshly provided round. -/
inductive Reachable : Round → Prop where
  | new (n : Int) : Reachable (Round.new n)
  | addProposed {r : Round} (b : Block) :
      Reachable r → Reachable (r.AddProposedBlock b).1
  | addNotarized {r : Round} (b : Block) :
      Reachable r → Reachable (r.AddNotarizedBlock b).1
  | addVRF {r : Round} (s : VRFShare) (t : Int) :
      Reachable r → Reachable (r.AddVRFShare s t).1
  | addAdditionalVRF {r : Round} (s : VRFShare) :
      Reachable r → Reachable (r.AddAdditionalVRFShare s).1
  | setRandomSeed {r : Round} (seed : Int) :
      Reachable r → Reachable (r.SetRandomSeed seed)
  | setState {r : Round} (s : Int) : Reachable r → Reachable (r.setState s)
  | resetState {r : Round} (s : Int) : Reachable r → Reachable (r.ResetState s)
  | finalize {r : Round} (b : Block) : Reachable r → Reachable (r.Finalize b)
  | restart {r : Round} : Reachable r → Reachable r.Restart
  | addTimeoutVote {r : Round} (num : Int) (id : String) :
      Reachable r → Reachable (r.AddTimeoutVote num id)
  | incTC {r : Round} : Reachable r → Reachable r.IncrementTimeoutCount

/-! ### Concrete inputs used by counterexample and evaluation theorems -/

/-- A round holding one VRF share, used to evaluate `AddVRFShare` at its
threshold branch. -/
def c1Round : Round :=
  { Round.new 5 with shares := [("pa", { partyKey := "pa", share := "sa" })] }

/-- A fresh share from a party not yet in `c1Round`. -/
def c1Share : VRFShare := { partyKey := "pb", share := "sb" }

/-- Sharder response with the lower round number but more votes. -/
def c2BlockA : Block :=
  { hash := "a", round := 1, roundRank := 0, chainWeight := 0,
    verificationTickets := [], isNotarized := false }

/-- Sharder response with the higher round number. -/
def c2BlockB : Block :=
  { hash := "b", round := 2, roundRank := 0, chainWeight := 0,
    verificationTickets := [], isNotarized := false }

/-! ### Theorems -/

/-- C1: `Round.AddVRFShare` evaluated at the failing input.  With one share
stored and threshold 1 (threshold already reached), the incoming share from a
new party is not stored — but the function returns `true`, although its own
log line says "Returning false." and the claim requires rejection to return
`false`.  Below threshold the code does behave as claimed: a duplicate party
is rejected with `false` and the share set is unchanged, and a new party is
admitted exactly once. -/
theorem AddVRFShare_threshold_eval :
    (c1Round.AddVRFShare c1Share 1).2 = true ∧
    (c1Round.AddVRFShare c1Share 1).1.shares = c1Round.shares ∧
    (c1Round.AddVRFShare c1Share 3).2 = true ∧
    (c1Round.AddVRFShare c1Share 3).1.shares
      = c1Round.shares ++ [(c1Share.partyKey, c1Share)] ∧
    ((c1Round.AddVRFShare c1Share 3).1.AddVRFShare c1Share 3).2 = false ∧
    ((c1Round.AddVRFShare c1Share 3).1.AddVRFShare c1Share 3).1.shares
      = (c1Round.AddVRFShare c1Share 3).1.shares := by
  decide

/-- C2: `GetFinalizedBlockFromSharders` evaluated at the failing input.  Six
responses arrive: first the round-2 block `c2BlockB`, then five copies of the
round-1 block `c2BlockA`.  The comparison closure passed to `sort.Slice`
(`Round >= Round || consensus > consensus`, embedded verbatim as `fbLess`) is
not a strict weak ordering, and the sort it drives returns the round-1 block
— not the response with the highest round number, which the claim (and the
comment right above the sort call: "highest (the first sorting order), most
popular (the second order)") requires. -/
theorem GetFinalizedBlockFromSharders_eval :
    GetFinalizedBlockFromSharders
        [c2BlockB, c2BlockA, c2BlockA, c2BlockA, c2BlockA, c2BlockA]
      = some c2BlockA ∧
    c2BlockA.round < c2BlockB.round := by
  decide

/-- C7: `Round.Restart` resets the proposed-blocks list, the
notarized-blocks list, the VRF share map, the best block, the has-seed flag
and the seed, and the soft-timeout counter, and sets the state to
`RoundShareVRF` (`SHARING_VRF`), while leaving every component of the
timeout counter — and every other field — unchanged. -/
theorem Restart_resets_and_keeps_timeout_counter (r : Round) :
    r.Restart =
      { r with
          proposedBlocks := []
          notarizedBlocks := []
          shares := []
          hasRandomSeed := false
          randomSeed := 0
          block := none
          softTimeoutCount := 0
          state := RoundShareVRF } ∧
    r.Restart.tc.count = r.tc.count ∧
    r.Restart.tc.timeoutVotes = r.tc.timeoutVotes ∧
    r.Restart.tc.votersVoted = r.tc.votersVoted := by
  refine ⟨rfl, rfl, rfl, rfl⟩

/-- C9: `Round.IsFinalized` returns `true` for every round object whose
number is 0, whatever its state — in particular immediately after creation
and immediately after `Restart` — while for a round with a non-zero number
it returns `true` exactly when the state is `RoundStateFinalized`. -/
theorem IsFinalized_zero_round (r : Round) :
    (r.number = 0 → r.IsFinalized = true) ∧
    (r.number ≠ 0 → (r.IsFinalized = true ↔ r.state = RoundStateFinalized)) ∧
    (Round.new 0).IsFinalized = true ∧
    (Round.new 0).Restart.IsFinalized = true := by
  refine ⟨?_, ?_, by decide, by decide⟩
  · intro h
    simp [Round.IsFinalized, Round.isFinalized, Round.getState, h]
  · intro h
    simp [Round.IsFinalized, Round.isFinalized, Round.getState, h,
      RoundStateFinalized]

/-- Witness for `IsFinalized_zero_round`: at round number 3 in state 2 the
round is not finalized, and a freshly created round 0 is. -/
theorem IsFinalized_zero_round_witness :
    ({ Round.new 3 with state := 2 } : Round).IsFinalized = false ∧
    (Round.new 0).IsFinalized = true := by
  constructor
  · have h := (IsFinalized_zero_round { Round.new 3 with state := 2 }).2.1
      (by decide)
    revert h
    decide
  · exact (IsFinalized_zero_round (Round.new 0)).1 rfl

/-- `rankLE` is transitive. -/
theorem rankLE_trans (a b c : Block) (h1 : rankLE a b = true)
    (h2 : rankLE b c = true) : rankLE a c = true := by
  simp only [rankLE, decide_eq_true_eq] at *
  omega

/-- `rankLE` is total. -/
theorem rankLE_total (a b : Block) : (rankLE a b || rankLE b a) = true := by
  simp only [rankLE, Bool.or_eq_true, decide_eq_true_eq]
  omega

/-- `weightGE` is transitive. -/
theorem weightGE_trans (a b c : Block) (h1 : weightGE a b = true)
    (h2 : weightGE b c = true) : weightGE a c = true := by
  simp only [weightGE, decide_eq_true_eq] at *
  omega

/-- `weightGE` is total. -/
theorem weightGE_total (a b : Block) : (weightGE a b || weightGE b a) = true := by
  simp only [weightGE, Bool.or_eq_true, decide_eq_true_eq]
  omega

/-- The timer sweep attempts exactly the maximal failing prefix followed by
the first succeeding block, and reports that block. -/
theorem verifySweep_eq (verify : Block → Bool) (l : List Block) :
    verifySweep verify l =
      (l.find? verify,
       l.takeWhile (fun x => !verify x) ++ (l.find? verify).toList) := by
  induction l with
  | nil => rfl
  | cons b bs ih =>
      by_cases h : verify b
      · simp [verifySweep, h, List.find?_cons, List.takeWhile_cons]
      · simp only [verifySweep, h, if_false, ih, List.find?_cons,
          List.takeWhile_cons]
        simp [h]

/-- `GetBlocksByRank` sorts by round rank ascending and permutes its
input. -/
theorem GetBlocksByRank_sorted_perm (blocks : List Block) :
    (GetBlocksByRank blocks).Pairwise (fun a c => a.roundRank ≤ c.roundRank) ∧
    (GetBlocksByRank blocks).Perm blocks := by
  constructor
  · have h := List.sorted_mergeSort rankLE_trans rankLE_total blocks
    exact h.imp (fun hab => by simpa [rankLE] using hab)
  · exact List.mergeSort_perm blocks rankLE

/-- C3: behaviour of the `CollectBlocksForVerification` loop.  Before the
block-time timer fires, an arriving block is only appended to the buffer and
no verification runs.  When the timer fires, the buffer is sorted by round
rank ascending (a permutation of the buffer) and the blocks are verified in
that order, stopping at the first success, which becomes the round's best
block.  After the timer, an arriving block is verified immediately exactly
when the round has no best block or the block's rank is strictly less than
the best block's rank, and is dropped otherwise. -/
theorem CollectBlocksForVerification_spec (verify : Block → Bool)
    (s : CollectorState) (b : Block) :
    (s.sendVerification = false →
      collectorStep verify s (.arrive b)
        = ({ s with buffer := s.buffer ++ [b] }, [])) ∧
    (s.sendVerification = true →
      ((collectorStep verify s (.arrive b)).2 = [b] ↔
        (s.best = none ∨ ∃ cb, s.best = some cb ∧ b.roundRank < cb.roundRank)) ∧
      ((collectorStep verify s (.arrive b)).2 = [] ↔
        ∃ cb, s.best = some cb ∧ cb.roundRank ≤ b.roundRank)) ∧
    (collectorStep verify s .timer).2
      = (GetBlocksByRank s.buffer).takeWhile (fun x => !verify x)
        ++ ((GetBlocksByRank s.buffer).find? verify).toList ∧
    (collectorStep verify s .timer).1.best
      = ((GetBlocksByRank s.buffer).find? verify).or s.best ∧
    (collectorStep verify s .timer).1.sendVerification = true ∧
    (GetBlocksByRank s.buffer).Pairwise (fun a c => a.roundRank ≤ c.roundRank) ∧
    (GetBlocksByRank s.buffer).Perm s.buffer := by
  refine ⟨?_, ?_, ?_, ?_, ?_, (GetBlocksByRank_sorted_perm s.buffer).1,
    (GetBlocksByRank_sorted_perm s.buffer).2⟩
  · intro h
    simp [collectorStep, h]
  · intro h
    cases hb : s.best with
    | none =>
        constructor
        · by_cases hv : verify b <;> simp [collectorStep, h, hb, hv]
        · by_cases hv : verify b <;> simp [collectorStep, h, hb, hv]
    | some cb =>
        constructor
        · by_cases hr : b.roundRank < cb.roundRank
          · by_cases hv : verify b <;>
              simp [collectorStep, h, hb, hr, hv]
          · simp only [collectorStep, h, hb, if_true]
            simp [hr]
        · by_cases hr : b.roundRank < cb.roundRank
          · by_cases hv : verify b <;> simp [collectorStep, h, hb, hr, hv]
          · simp [collectorStep, h, hb, hr]
            try omega
  · simp [collectorStep, verifySweep_eq]
  · cases hf : (GetBlocksByRank s.buffer).find? verify with
    | none => simp [collectorStep, verifySweep_eq, hf, Option.or]
    | some w => simp [collectorStep, verifySweep_eq, hf, Option.or]
  · simp [collectorStep]

/-- Verification outcome used by the collector witness: rank-1 blocks
verify. -/
def c3Verify : Block → Bool := fun blk => blk.roundRank == 1

/-- Collector state before the timer with an empty buffer. -/
def c3State : CollectorState :=
  { sendVerification := false, buffer := [], best := none }

/-- A rank-2 candidate block. -/
def c3Block : Block :=
  { hash := "x", round := 4, roundRank := 2, chainWeight := 0,
    verificationTickets := [], isNotarized := false }

/-- Witness for `CollectBlocksForVerification_spec`: before the timer the
rank-2 block is only buffered. -/
theorem CollectBlocksForVerification_spec_witness :
    collectorStep c3Verify c3State (.arrive c3Block)
      = ({ c3State with buffer := c3State.buffer ++ [c3Block] }, []) :=
  (CollectBlocksForVerification_spec c3Verify c3State c3Block).1 rfl

/-- The vote scan computes the lexicographic maximum (votes first, then
timeout number) over the tally entries and the seed accumulator. -/
theorem selectWinner_spec (l : List (Int × Nat)) :
    ∀ (mv : Nat) (mt : Int),
      (selectWinner l (mv, mt) = (mv, mt) ∨
        ((selectWinner l (mv, mt)).2, (selectWinner l (mv, mt)).1) ∈ l) ∧
      (∀ p ∈ l, p.2 < (selectWinner l (mv, mt)).1 ∨
        (p.2 = (selectWinner l (mv, mt)).1 ∧
          p.1 ≤ (selectWinner l (mv, mt)).2)) ∧
      (mv < (selectWinner l (mv, mt)).1 ∨
        (mv = (selectWinner l (mv, mt)).1 ∧
          mt ≤ (selectWinner l (mv, mt)).2)) := by
  induction l with
  | nil =>
      intro mv mt
      simp [selectWinner]
  | cons p rest ih =>
      intro mv mt
      obtain ⟨k, v⟩ := p
      by_cases hc : v > mv ∨ (v = mv ∧ k > mt)
      · have hstep : selectWinner ((k, v) :: rest) (mv, mt)
            = selectWinner rest (v, k) := by
          simp [selectWinner, hc]
        obtain ⟨h1, h2, h3⟩ := ih v k
        rw [hstep]
        refine ⟨?_, ?_, ?_⟩
        · rcases h1 with h1 | h1
          · right
            rw [h1]
            exact List.mem_cons_self _ _
          · right
            exact List.mem_cons_of_mem _ h1
        · intro q hq
          rcases List.mem_cons.mp hq with hq | hq
          · subst hq
            exact h3
          · exact h2 q hq
        · rcases hc with hc | hc <;> rcases h3 with h3 | h3 <;> omega
      · have hstep : selectWinner ((k, v) :: rest) (mv, mt)
            = selectWinner rest (mv, mt) := by
          simp [selectWinner, hc]
        obtain ⟨h1, h2, h3⟩ := ih mv mt
        rw [hstep]
        refine ⟨?_, ?_, ?_⟩
        · rcases h1 with h1 | h1
          · left
            exact h1
          · right
            exact List.mem_cons_of_mem _ h1
        · intro q hq
          rcases List.mem_cons.mp hq with hq | hq
          · subst hq
            push_neg at hc
            rcases h3 with h3 | h3 <;>
              simp only [Prod.fst, Prod.snd] <;> omega
          · exact h2 q hq
        · exact h3

/-- C4: `IncrementTimeoutCount` picks as winner the timeout number with the
most votes — ties among equal vote counts broken by the higher number —
clears the vote tally and the voter set, and sets the new timeout count to
`max (current + 1) (winner + 1)`; with an empty tally it just increments the
count.  A vote is counted at most once per voter: `addVote` is a no-op for a
voter already pinned.  The hypothesis that every tally entry carries at
least one vote holds for every tally the code builds, since entries are only
created or incremented by `addVote`. -/
theorem IncrementTimeoutCount_spec (tc : TimeoutCounter)
    (hpos : ∀ p ∈ tc.timeoutVotes, 1 ≤ p.2) :
    (tc.timeoutVotes ≠ [] →
      ∃ w ∈ tc.timeoutVotes,
        (∀ q ∈ tc.timeoutVotes, q.2 < w.2 ∨ (q.2 = w.2 ∧ q.1 ≤ w.1)) ∧
        tc.IncrementTimeoutCount =
          { count := max (tc.count + 1) (w.1 + 1),
            timeoutVotes := [], votersVoted := [] }) ∧
    (∀ id num, tc.isVoted id = true → tc.addVote id num = tc) ∧
    (tc.timeoutVotes = [] →
      tc.IncrementTimeoutCount =
        { count := tc.count + 1, timeoutVotes := [], votersVoted := [] }) := by
  refine ⟨?_, ?_, ?_⟩
  · intro hne
    obtain ⟨h1, h2, h3⟩ := selectWinner_spec tc.timeoutVotes 0 tc.count
    rcases h1 with h1 | h1
    · obtain ⟨p0, hp0⟩ := List.exists_mem_of_ne_nil tc.timeoutVotes hne
      have hmax := h2 p0 hp0
      have hp1 := hpos p0 hp0
      rw [h1] at hmax
      simp only [Prod.fst, Prod.snd] at hmax
      omega
    · refine ⟨((selectWinner tc.timeoutVotes (0, tc.count)).2,
        (selectWinner tc.timeoutVotes (0, tc.count)).1), h1, ?_, ?_⟩
      · intro q hq
        exact h2 q hq
      · show TimeoutCounter.IncrementTimeoutCount tc = _
        unfold TimeoutCounter.IncrementTimeoutCount
        simp only [TimeoutCounter.resetVotes]
        split
        · simp only [TimeoutCounter.mk.injEq, and_true]
          omega
        · simp only [TimeoutCounter.mk.injEq, and_true]
          omega
  · intro id num h
    simp [TimeoutCounter.addVote, h]
  · intro h
    simp [TimeoutCounter.IncrementTimeoutCount, h, selectWinner,
      TimeoutCounter.resetVotes]

/-- Tally used by the timeout-counter witness: numbers 3 and 5 have two
votes each, number 4 has one. -/
def c4Counter : TimeoutCounter :=
  { count := 1, timeoutVotes := [(3, 2), (5, 2), (4, 1)],
    votersVoted := ["idA"] }

/-- Witness for `IncrementTimeoutCount_spec`: a repeated vote by the pinned
voter `idA` changes nothing, and the increment resolves the tie between the
two-vote numbers 3 and 5 towards 5, setting the count to
`max (1+1) (5+1) = 6`. -/
theorem IncrementTimeoutCount_spec_witness :
    c4Counter.addVote "idA" 9 = c4Counter ∧
    c4Counter.IncrementTimeoutCount =
      { count := 6, timeoutVotes := [], votersVoted := [] } :=
  ⟨(IncrementTimeoutCount_spec c4Counter (by decide)).2.1 "idA" 9 (by decide),
   by decide⟩

/-- A hexadecimal digit is worth less than 16. -/
theorem hexDigitVal_lt (c : Char) (d : Nat) (h : hexDigitVal c = some d) :
    d < 16 := by
  unfold hexDigitVal at h
  split at h
  · injection h with h
    omega
  · split at h
    · injection h with h
      omega
    · split at h
      · injection h with h
        omega
      · exact absurd h (by simp)

/-- The digit loop of `ParseUint` stays below `(acc + 1) * 16 ^ digits`. -/
theorem parseHexNat_lt (cs : List Char) :
    ∀ (acc u : Nat), parseHexNat cs acc = some u →
      u < (acc + 1) * 16 ^ cs.length := by
  induction cs with
  | nil =>
      intro acc u h
      injection h with h
      simp [h.symm]
  | cons c cs ih =>
      intro acc u h
      unfold parseHexNat at h
      cases hd : hexDigitVal c with
      | none => rw [hd] at h; exact absurd h (by simp)
      | some d =>
          rw [hd] at h
          have hdlt := hexDigitVal_lt c d hd
          have hu := ih (acc * 16 + d) u h
          calc u < (acc * 16 + d + 1) * 16 ^ cs.length := hu
            _ ≤ ((acc + 1) * 16) * 16 ^ cs.length := by
                have : acc * 16 + d + 1 ≤ (acc + 1) * 16 := by omega
                exact Nat.mul_le_mul_right _ this
            _ = (acc + 1) * 16 ^ (c :: cs).length := by
                rw [List.length_cons, pow_succ]
                ring

/-- The first 16 hex characters parse to a value below `2 ^ 64`. -/
theorem parseUint16Hex_lt (s : String) (u : Nat)
    (h : parseUint16Hex s = some u) : u < 2 ^ 64 := by
  unfold parseUint16Hex at h
  split at h
  · exact absurd h (by simp)
  · rename_i hlen
    have hb := parseHexNat_lt (s.toList.take 16) 0 u h
    have hlen16 : (s.toList.take 16).length = 16 := by
      have hsl : s.toList.length = s.length := rfl
      simp [List.length_take, hsl]
      omega
    rw [hlen16] at hb
    calc u < (0 + 1) * 16 ^ 16 := hb
      _ = 2 ^ 64 := by norm_num

/-- The `int64(useed)` conversion is the two's-complement reinterpretation:
it lands in the `int64` range and is congruent to the unsigned value modulo
`2 ^ 64`. -/
theorem int64OfUInt64_spec (u : Nat) (h : u < 2 ^ 64) :
    -(2 ^ 63) ≤ int64OfUInt64 u ∧ int64OfUInt64 u < 2 ^ 63 ∧
      int64OfUInt64 u % 2 ^ 64 = (u : Int) := by
  have h63 : (2 : Int) ^ 63 = 9223372036854775808 := by norm_num
  have h64 : (2 : Int) ^ 64 = 18446744073709551616 := by norm_num
  have h63n : (2 : Nat) ^ 63 = 9223372036854775808 := by norm_num
  have h64n : (2 : Nat) ^ 64 = 18446744073709551616 := by norm_num
  have hu : (u : Int) < 18446744073709551616 := by
    rw [h64n] at h
    exact_mod_cast h
  unfold int64OfUInt64
  split
  · rename_i hlt
    rw [h63n] at hlt
    have : (u : Int) < 9223372036854775808 := by exact_mod_cast hlt
    refine ⟨by omega, by omega, ?_⟩
    rw [h64]
    omega
  · rename_i hge
    rw [h63n] at hge
    have : (9223372036854775808 : Int) ≤ (u : Int) := by
      have := Nat.le_of_not_lt hge
      exact_mod_cast this
    refine ⟨by omega, by omega, ?_⟩
    rw [h63, h64] at *
    omega

/-- C5: the round seed.  In DKG mode, when the beacon output `rbo` (the hash
of the combined group signature) parses, `computeRoundRandomSeed` produces
exactly the int64 reinterpretation of the unsigned 64-bit integer read from
the first 16 hex characters of `rbo`: the parsed value is below `2 ^ 64` and
the seed is the unique int64-range integer congruent to it modulo `2 ^ 64`.
In non-DKG mode with a VRF-complete previous round, the seed is the first
`Int63` drawn from the generator seeded with the previous round's seed. -/
theorem computeRoundRandomSeed_spec :
    (∀ (g : Int → Int) (v : Round → Bool) (pr : Option Round) (rbo : String)
        (u : Nat), parseUint16Hex rbo = some u →
      computeRoundRandomSeed true g v pr rbo = some (int64OfUInt64 u) ∧
      u < 2 ^ 64 ∧
      -(2 ^ 63) ≤ int64OfUInt64 u ∧
      int64OfUInt64 u < 2 ^ 63 ∧
      int64OfUInt64 u % 2 ^ 64 = (u : Int)) ∧
    (∀ (g : Int → Int) (v : Round → Bool) (p : Round) (rbo : String),
      v p = true →
        computeRoundRandomSeed false g v (some p) rbo
          = some (g p.randomSeed)) := by
  constructor
  · intro g v pr rbo u h
    have hlt := parseUint16Hex_lt rbo u h
    obtain ⟨h1, h2, h3⟩ := int64OfUInt64_spec u hlt
    exact ⟨by simp [computeRoundRandomSeed, h], hlt, h1, h2, h3⟩
  · intro g v p rbo h
    simp [computeRoundRandomSeed, h]

/-- Witness for `computeRoundRandomSeed_spec`: sixteen `f` characters parse
to `2 ^ 64 - 1`, whose int64 reinterpretation is `-1`; and in non-DKG mode
the seed is the generator's first draw on the previous seed. -/
theorem computeRoundRandomSeed_spec_witness :
    computeRoundRandomSeed true (fun x => x) (fun _ => false) none
        "ffffffffffffffff" = some (-1) ∧
    computeRoundRandomSeed false (fun x => x + 41) (fun _ => true)
        (some (Round.new 2)) "" = some 41 := by
  constructor
  · have h := (computeRoundRandomSeed_spec.1 (fun x => x) (fun _ => false)
      none "ffffffffffffffff" 18446744073709551615 (by decide)).1
    rw [h]
    decide
  · have h := computeRoundRandomSeed_spec.2 (fun x => x + 41)
      (fun _ => true) (Round.new 2) "" rfl
    rw [h]
    decide

/-! ### Round-object invariants (rank uniqueness, sortedness, subset) -/

/-- Merging tickets leaves the hash unchanged. -/
@[simp]
theorem mergeVerificationTickets_hash (blk : Block) (ts : List String) :
    (blk.mergeVerificationTickets ts).hash = blk.hash := rfl

/-- Merging tickets leaves the round rank unchanged. -/
@[simp]
theorem mergeVerificationTickets_roundRank (blk : Block) (ts : List String) :
    (blk.mergeVerificationTickets ts).roundRank = blk.roundRank := rfl

/-- Merging tickets leaves the chain weight unchanged. -/
@[simp]
theorem mergeVerificationTickets_chainWeight (blk : Block) (ts : List String) :
    (blk.mergeVerificationTickets ts).chainWeight = blk.chainWeight := rfl

/-- Marking notarized leaves the hash unchanged. -/
@[simp]
theorem setBlockNotarized_hash (b : Block) :
    b.setBlockNotarized.hash = b.hash := rfl

/-- Marking notarized leaves the round rank unchanged. -/
@[simp]
theorem setBlockNotarized_roundRank (b : Block) :
    b.setBlockNotarized.roundRank = b.roundRank := rfl

/-- Marking notarized leaves the chain weight unchanged. -/
@[simp]
theorem setBlockNotarized_chainWeight (b : Block) :
    b.setBlockNotarized.chainWeight = b.chainWeight := rfl

/-- The invariant of a `Round`'s two block collections: proposed blocks are
duplicate-free by hash and sorted by round rank ascending; notarized blocks
have pairwise distinct round ranks and are sorted by chain weight
descending; and every notarized hash is a proposed hash. -/
def Inv (r : Round) : Prop :=
  (r.proposedBlocks.map Block.hash).Nodup ∧
  r.proposedBlocks.Pairwise (fun a b => a.roundRank ≤ b.roundRank) ∧
  (r.notarizedBlocks.map Block.roundRank).Nodup ∧
  r.notarizedBlocks.Pairwise (fun a b => b.chainWeight ≤ a.chainWeight) ∧
  ∀ h2 ∈ r.notarizedBlocks.map Block.hash,
    h2 ∈ r.proposedBlocks.map Block.hash

/-- The weight sort used for notarized blocks is sorted by chain weight
descending and permutes its input. -/
theorem sortWeight_sorted_perm (l : List Block) :
    (l.mergeSort weightGE).Pairwise
      (fun a b => b.chainWeight ≤ a.chainWeight) ∧
    (l.mergeSort weightGE).Perm l := by
  constructor
  · have h := List.sorted_mergeSort weightGE_trans weightGE_total l
    exact h.imp (fun hab => by simpa [weightGE] using hab)
  · exact List.mergeSort_perm l weightGE

/-- A failed hash search means no member carries the hash. -/
theorem find?_hash_none {l : List Block} {h : String}
    (hf : l.find? (fun blk => blk.hash == h) = none) :
    ∀ x ∈ l, x.hash ≠ h := by
  intro x hx
  have := List.find?_eq_none.mp hf x hx
  simpa using this

/-- A successful hash search returns a member carrying the hash. -/
theorem find?_hash_some {l : List Block} {h : String} {blk : Block}
    (hf : l.find? (fun x => x.hash == h) = some blk) :
    blk ∈ l ∧ blk.hash = h := by
  refine ⟨List.mem_of_find?_eq_some hf, ?_⟩
  have := List.find?_some hf
  simpa using this

/-- `addProposedBlock` never touches the notarized list. -/
theorem addProposedBlock_notarized (r : Round) (b : Block) :
    (r.addProposedBlock b).1.notarizedBlocks = r.notarizedBlocks := by
  unfold Round.addProposedBlock
  cases hf : r.proposedBlocks.find? (fun blk => blk.hash == b.hash) <;> rfl

/-- The block `addProposedBlock` returns carries the incoming hash. -/
theorem addProposedBlock_ret_hash (r : Round) (b : Block) :
    (r.addProposedBlock b).2.1.hash = b.hash := by
  unfold Round.addProposedBlock
  cases hf : r.proposedBlocks.find? (fun blk => blk.hash == b.hash) with
  | none => rfl
  | some blk =>
      simpa using (find?_hash_some hf).2

/-- After `addProposedBlock` the incoming hash is a proposed hash. -/
theorem addProposedBlock_hash_mem (r : Round) (b : Block) :
    b.hash ∈ (r.addProposedBlock b).1.proposedBlocks.map Block.hash := by
  unfold Round.addProposedBlock
  cases hf : r.proposedBlocks.find? (fun blk => blk.hash == b.hash) with
  | none =>
      have hperm :=
        (List.mergeSort_perm (r.proposedBlocks ++ [b]) rankLE).map Block.hash
      simp only
      refine hperm.mem_iff.mpr ?_
      simp
  | some blk =>
      obtain ⟨hmem, hh⟩ := find?_hash_some hf
      simp only
      exact hh ▸ List.mem_map_of_mem Block.hash hmem

/-- `addProposedBlock` only grows the proposed hash set. -/
theorem addProposedBlock_hash_sub (r : Round) (b : Block) :
    ∀ x ∈ r.proposedBlocks.map Block.hash,
      x ∈ (r.addProposedBlock b).1.proposedBlocks.map Block.hash := by
  intro x hx
  unfold Round.addProposedBlock
  cases hf : r.proposedBlocks.find? (fun blk => blk.hash == b.hash) with
  | none =>
      have hperm :=
        (List.mergeSort_perm (r.proposedBlocks ++ [b]) rankLE).map Block.hash
      simp only
      refine hperm.mem_iff.mpr ?_
      simp only [List.map_append, List.mem_append]
      exact Or.inl hx
  | some blk => simpa using hx

/-- `addProposedBlock` preserves the invariant. -/
theorem addProposedBlock_inv (r : Round) (b : Block) (h : Inv r) :
    Inv (r.addProposedBlock b).1 := by
  obtain ⟨h1, h2, h3, h4, h5⟩ := h
  unfold Round.addProposedBlock
  cases hf : r.proposedBlocks.find? (fun blk => blk.hash == b.hash) with
  | some blk => exact ⟨h1, h2, h3, h4, h5⟩
  | none =>
      have hperm := List.mergeSort_perm (r.proposedBlocks ++ [b]) rankLE
      have hpermh := hperm.map Block.hash
      refine ⟨?_, ?_, h3, h4, ?_⟩
      · refine hpermh.nodup_iff.mpr ?_
        simp only [List.map_append, List.map_cons, List.map_nil]
        rw [List.nodup_append]
        refine ⟨h1, List.nodup_singleton _, ?_⟩
        intro x hx
        simp only [List.mem_singleton]
        intro hxb
        obtain ⟨y, hy, hyx⟩ := List.mem_map.mp hx
        exact find?_hash_none hf y hy (hyx.trans hxb)
      · have hs := List.sorted_mergeSort rankLE_trans rankLE_total
          (r.proposedBlocks ++ [b])
        exact hs.imp (fun hab => by simpa [rankLE] using hab)
      · intro x hx
        refine hpermh.mem_iff.mpr ?_
        simp only [List.map_append, List.mem_append]
        exact Or.inl (h5 x hx)

/-- Replacing the block `find?` located by one that agrees with it under `f`
leaves the `f`-image of the list unchanged. -/
theorem replaceFirstHash_map {α : Type} (f : Block → α) :
    ∀ (l : List Block) (hh : String) (m blk : Block),
      l.find? (fun x => x.hash == hh) = some blk → f m = f blk →
      (replaceFirstHash l hh m).map f = l.map f := by
  intro l
  induction l with
  | nil => intro hh m blk hf; simp at hf
  | cons x xs ih =>
      intro hh m blk hf hagree
      by_cases hx : x.hash == hh
      · have hfx := @List.find?_cons_of_pos _ (fun y => y.hash == hh) x xs hx
        have hblk : blk = x := (Option.some_inj.mp (hfx.symm.trans hf)).symm
        unfold replaceFirstHash
        rw [if_pos hx]
        simp [hagree, hblk]
      · have hfx := @List.find?_cons_of_neg _ (fun y => y.hash == hh) x xs
          (by simpa using hx)
        rw [hfx] at hf
        unfold replaceFirstHash
        rw [if_neg hx]
        simp only [List.map_cons]
        rw [ih hh m blk hf hagree]

/-- Erasing by rank yields a sublist. -/
theorem eraseFirstRankEq_sublist :
    ∀ (l : List Block) (rk : Int), (eraseFirstRankEq l rk).Sublist l := by
  intro l
  induction l with
  | nil => intro rk; simp [eraseFirstRankEq]
  | cons x xs ih =>
      intro rk
      unfold eraseFirstRankEq
      by_cases hx : x.roundRank == rk
      · rw [if_pos hx]
        exact List.sublist_cons_self x xs
      · rw [if_neg hx]
        exact (ih rk).cons₂ x

/-- Erasing by rank from a rank-duplicate-free list removes every block of
that rank. -/
theorem mem_eraseFirstRankEq_ne :
    ∀ (l : List Block) (rk : Int), (l.map Block.roundRank).Nodup →
      ∀ x ∈ eraseFirstRankEq l rk, x.roundRank ≠ rk := by
  intro l
  induction l with
  | nil => intro rk _ x hx; simp [eraseFirstRankEq] at hx
  | cons a as ih =>
      intro rk hnd x hx
      rw [List.map_cons, List.nodup_cons] at hnd
      unfold eraseFirstRankEq at hx
      by_cases ha : a.roundRank == rk
      · rw [if_pos ha] at hx
        have harank : a.roundRank = rk := by simpa using ha
        intro hxr
        exact hnd.1 (harank ▸ hxr ▸ List.mem_map_of_mem Block.roundRank hx)
      · rw [if_neg ha] at hx
        rcases List.mem_cons.mp hx with hx | hx
        · subst hx
          simpa using ha
        · exact ih rk hnd.2 x hx

/-- The last-occurrence variant is also a sublist. -/
theorem removeLastRankEq_sublist (l : List Block) (rk : Int) :
    (removeLastRankEq l rk).Sublist l := by
  unfold removeLastRankEq
  have h := (eraseFirstRankEq_sublist l.reverse rk).reverse
  simpa using h

/-- The last-occurrence variant removes every block of the rank when ranks
are duplicate-free. -/
theorem mem_removeLastRankEq_ne (l : List Block) (rk : Int)
    (hnd : (l.map Block.roundRank).Nodup) :
    ∀ x ∈ removeLastRankEq l rk, x.roundRank ≠ rk := by
  intro x hx
  unfold removeLastRankEq at hx
  rw [List.mem_reverse] at hx
  have hndr : (l.reverse.map Block.roundRank).Nodup := by
    rw [List.map_reverse]
    simpa using hnd
  exact mem_eraseFirstRankEq_ne l.reverse rk hndr x hx

/-- The rank-duplicate-free and weight-sorted properties of the notarized
list, with the notarized-hashes-are-proposed-hashes subset property, survive
`AddNotarizedBlock`. -/
theorem AddNotarizedBlock_inv (r : Round) (b : Block) (h : Inv r) :
    Inv (r.AddNotarizedBlock b).1 := by
  obtain ⟨h1, h2, h3, h4, h5⟩ := addProposedBlock_inv r b h
  have hbh := addProposedBlock_ret_hash r b
  have hbmem := addProposedBlock_hash_mem r b
  unfold Round.AddNotarizedBlock
  cases hf : (r.addProposedBlock b).1.notarizedBlocks.find?
      (fun blk => blk.hash == (r.addProposedBlock b).2.1.hash) with
  | some blk =>
      simp only [hf]
      have hmr := replaceFirstHash_map Block.roundRank
        (r.addProposedBlock b).1.notarizedBlocks
        (r.addProposedBlock b).2.1.hash
        (blk.mergeVerificationTickets
          (r.addProposedBlock b).2.1.verificationTickets) blk hf (by simp)
      have hmh := replaceFirstHash_map Block.hash
        (r.addProposedBlock b).1.notarizedBlocks
        (r.addProposedBlock b).2.1.hash
        (blk.mergeVerificationTickets
          (r.addProposedBlock b).2.1.verificationTickets) blk hf (by simp)
      have hmw := replaceFirstHash_map Block.chainWeight
        (r.addProposedBlock b).1.notarizedBlocks
        (r.addProposedBlock b).2.1.hash
        (blk.mergeVerificationTickets
          (r.addProposedBlock b).2.1.verificationTickets) blk hf (by simp)
      refine ⟨h1, h2, ?_, ?_, ?_⟩
      · dsimp only
        rw [hmr]
        exact h3
      · dsimp only
        have h4m := (@List.pairwise_map Block Int Block.chainWeight
          (fun x y => y ≤ x) ((r.addProposedBlock b).1.notarizedBlocks)).mpr h4
        rw [← hmw] at h4m
        exact (@List.pairwise_map Block Int Block.chainWeight
          (fun x y => y ≤ x) _).mp h4m
      · dsimp only
        intro x hx
        rw [hmh] at hx
        exact h5 x hx
  | none =>
      simp only [hf]
      have hperm := List.mergeSort_perm
        (removeLastRankEq (r.addProposedBlock b).1.notarizedBlocks
            (r.addProposedBlock b).2.1.roundRank
          ++ [(r.addProposedBlock b).2.1.setBlockNotarized]) weightGE
      have hsub := removeLastRankEq_sublist
        (r.addProposedBlock b).1.notarizedBlocks
        (r.addProposedBlock b).2.1.roundRank
      refine ⟨h1, h2, ?_, ?_, ?_⟩
      · refine (hperm.map Block.roundRank).nodup_iff.mpr ?_
        simp only [List.map_append, List.map_cons, List.map_nil]
        rw [List.nodup_append]
        refine ⟨(h3.sublist (hsub.map Block.roundRank)),
          List.nodup_singleton _, ?_⟩
        intro x hx
        simp only [List.mem_singleton]
        obtain ⟨y, hy, hyx⟩ := List.mem_map.mp hx
        intro hxb
        exact mem_removeLastRankEq_ne _ _ h3 y hy (by simpa [hxb] using hyx)
      · exact (sortWeight_sorted_perm _).1
      · intro x hx
        have hx2 := (hperm.map Block.hash).mem_iff.mp hx
        simp only [List.map_append, List.mem_append, List.map_cons,
          List.map_nil, List.mem_singleton] at hx2
        rcases hx2 with hx2 | hx2
        · obtain ⟨y, hy, hyx⟩ := List.mem_map.mp hx2
          exact h5 x (hyx ▸ List.mem_map_of_mem Block.hash (hsub.mem hy))
        · rw [hx2]
          simpa [hbh] using hbmem

/-- The invariant only looks at the two block collections. -/
theorem Inv_of_eq {r r' : Round} (hp : r'.proposedBlocks = r.proposedBlocks)
    (hn : r'.notarizedBlocks = r.notarizedBlocks) (h : Inv r) : Inv r' := by
  unfold Inv at *
  rw [hp, hn]
  exact h

/-- `setState` leaves both block collections unchanged. -/
theorem setState_lists (r : Round) (s : Int) :
    (r.setState s).proposedBlocks = r.proposedBlocks ∧
    (r.setState s).notarizedBlocks = r.notarizedBlocks := by
  unfold Round.setState
  split <;> exact ⟨rfl, rfl⟩

/-- `SetRandomSeed` leaves both block collections unchanged. -/
theorem SetRandomSeed_lists (r : Round) (seed : Int) :
    (r.SetRandomSeed seed).proposedBlocks = r.proposedBlocks ∧
    (r.SetRandomSeed seed).notarizedBlocks = r.notarizedBlocks := by
  unfold Round.SetRandomSeed Round.setState
  split
  · exact ⟨rfl, rfl⟩
  · split <;> exact ⟨rfl, rfl⟩

/-- `AddVRFShare` leaves both block collections unchanged. -/
theorem AddVRFShare_lists (r : Round) (s : VRFShare) (t : Int) :
    (r.AddVRFShare s t).1.proposedBlocks = r.proposedBlocks ∧
    (r.AddVRFShare s t).1.notarizedBlocks = r.notarizedBlocks := by
  unfold Round.AddVRFShare Round.setState
  split
  · exact ⟨rfl, rfl⟩
  · split
    · exact ⟨rfl, rfl⟩
    · split <;> exact ⟨rfl, rfl⟩

/-- `AddAdditionalVRFShare` leaves both block collections unchanged. -/
theorem AddAdditionalVRFShare_lists (r : Round) (s : VRFShare) :
    (r.AddAdditionalVRFShare s).1.proposedBlocks = r.proposedBlocks ∧
    (r.AddAdditionalVRFShare s).1.notarizedBlocks = r.notarizedBlocks := by
  unfold Round.AddAdditionalVRFShare Round.setState
  split
  · exact ⟨rfl, rfl⟩
  · split <;> exact ⟨rfl, rfl⟩

/-- `Finalize` leaves both block collections unchanged. -/
theorem Finalize_lists (r : Round) (b : Block) :
    (r.Finalize b).proposedBlocks = r.proposedBlocks ∧
    (r.Finalize b).notarizedBlocks = r.notarizedBlocks := by
  unfold Round.Finalize Round.setState
  split <;> exact ⟨rfl, rfl⟩

/-- A restarted round trivially satisfies the invariant: both collections
are empty. -/
theorem Inv_restart (r : Round) : Inv r.Restart := by
  unfold Inv Round.Restart Round.reinit Round.ResetState
  simp

/-- Every reachable state of a `Round` object satisfies the collection
invariant. -/
theorem Reachable_inv {r : Round} (h : Reachable r) : Inv r := by
  induction h with
  | new n => simp [Inv, Round.new]
  | addProposed b _ ih => exact addProposedBlock_inv _ b ih
  | addNotarized b _ ih => exact AddNotarizedBlock_inv _ b ih
  | addVRF s t _ ih =>
      exact Inv_of_eq (AddVRFShare_lists _ s t).1 (AddVRFShare_lists _ s t).2 ih
  | addAdditionalVRF s _ ih =>
      exact Inv_of_eq (AddAdditionalVRFShare_lists _ s).1
        (AddAdditionalVRFShare_lists _ s).2 ih
  | setRandomSeed seed _ ih =>
      exact Inv_of_eq (SetRandomSeed_lists _ seed).1
        (SetRandomSeed_lists _ seed).2 ih
  | setState s _ ih =>
      exact Inv_of_eq (setState_lists _ s).1 (setState_lists _ s).2 ih
  | resetState s _ ih => exact Inv_of_eq rfl rfl ih
  | finalize b _ ih =>
      exact Inv_of_eq (Finalize_lists _ b).1 (Finalize_lists _ b).2 ih
  | restart _ _ => exact Inv_restart _
  | addTimeoutVote num id _ ih => exact Inv_of_eq rfl rfl ih
  | incTC _ ih => exact Inv_of_eq rfl rfl ih

/-- When the incoming hash is not yet proposed, `addProposedBlock` keeps the
incoming block itself. -/
theorem addProposedBlock_ret_of_not_mem (r : Round) (b : Block)
    (h : b.hash ∉ r.proposedBlocks.map Block.hash) :
    (r.addProposedBlock b).2.1 = b := by
  cases hf : r.proposedBlocks.find? (fun blk => blk.hash == b.hash) with
  | some blk =>
      obtain ⟨hmem, hh⟩ := find?_hash_some hf
      exact absurd (hh ▸ List.mem_map_of_mem Block.hash hmem) h
  | none => simp [Round.addProposedBlock, hf]

/-- `AddNotarizedBlock` changes the proposed list exactly as its initial
`addProposedBlock` call does. -/
theorem AddNotarizedBlock_proposed (r : Round) (b : Block) :
    (r.AddNotarizedBlock b).1.proposedBlocks
      = (r.addProposedBlock b).1.proposedBlocks := by
  unfold Round.AddNotarizedBlock
  cases hf : (r.addProposedBlock b).1.notarizedBlocks.find?
      (fun blk => blk.hash == (r.addProposedBlock b).2.1.hash) <;>
    simp only [hf]

/-- C6: in every reachable state of a `Round` object no two notarized blocks
share a round rank, and the notarized collection is sorted by chain weight
descending.  `AddNotarizedBlock` preserves both properties; when the
incoming block's hash is already stored it only merges tickets, returning
`false` and leaving the stored hash multiset unchanged; and when a genuinely
new block is inserted, any stored block of equal rank is removed, so the new
block is the only one of its rank. -/
theorem notarized_ranks_unique (r : Round) (h : Reachable r) :
    (r.notarizedBlocks.map Block.roundRank).Nodup ∧
    r.notarizedBlocks.Pairwise (fun a b => b.chainWeight ≤ a.chainWeight) ∧
    (∀ b : Block,
      ((r.AddNotarizedBlock b).1.notarizedBlocks.map Block.roundRank).Nodup ∧
      (r.AddNotarizedBlock b).1.notarizedBlocks.Pairwise
        (fun a c => c.chainWeight ≤ a.chainWeight)) ∧
    (∀ b : Block, b.hash ∈ r.notarizedBlocks.map Block.hash →
      (r.AddNotarizedBlock b).2.2 = false ∧
      (r.AddNotarizedBlock b).1.notarizedBlocks.map Block.hash
        = r.notarizedBlocks.map Block.hash) ∧
    (∀ b : Block, b.hash ∉ r.proposedBlocks.map Block.hash →
      (r.AddNotarizedBlock b).2.2 = true ∧
      b.hash ∈ (r.AddNotarizedBlock b).1.notarizedBlocks.map Block.hash ∧
      ∀ x ∈ (r.AddNotarizedBlock b).1.notarizedBlocks,
        x.roundRank = b.roundRank → x.hash = b.hash) := by
  have hinv := Reachable_inv h
  obtain ⟨g1, g2, g3, g4, g5⟩ := hinv
  refine ⟨g3, g4, ?_, ?_, ?_⟩
  · intro b
    have hadd := AddNotarizedBlock_inv r b (Reachable_inv h)
    exact ⟨hadd.2.2.1, hadd.2.2.2.1⟩
  · intro b hm
    have hbh := addProposedBlock_ret_hash r b
    have hnb := addProposedBlock_notarized r b
    have hm1 : b.hash ∈ (r.addProposedBlock b).1.notarizedBlocks.map Block.hash := by
      rw [hnb]; exact hm
    cases hf : (r.addProposedBlock b).1.notarizedBlocks.find?
        (fun blk => blk.hash == (r.addProposedBlock b).2.1.hash) with
    | none =>
        obtain ⟨y, hy, hyx⟩ := List.mem_map.mp hm1
        have := find?_hash_none hf y hy
        rw [hbh] at this
        exact absurd hyx this
    | some blk =>
        have hmh := replaceFirstHash_map Block.hash
          (r.addProposedBlock b).1.notarizedBlocks
          (r.addProposedBlock b).2.1.hash
          (blk.mergeVerificationTickets
            (r.addProposedBlock b).2.1.verificationTickets) blk hf (by simp)
        constructor
        · unfold Round.AddNotarizedBlock
          simp only [hf]
        · unfold Round.AddNotarizedBlock
          simp only [hf]
          try dsimp only
          rw [hmh, hnb]
  · intro b hp
    have hbeq := addProposedBlock_ret_of_not_mem r b hp
    have hnb := addProposedBlock_notarized r b
    have hnm : b.hash ∉ (r.addProposedBlock b).1.notarizedBlocks.map Block.hash := by
      rw [hnb]
      intro hc
      exact hp (g5 b.hash hc)
    have hf : (r.addProposedBlock b).1.notarizedBlocks.find?
        (fun blk => blk.hash == (r.addProposedBlock b).2.1.hash) = none := by
      rw [List.find?_eq_none]
      intro x hx
      rw [hbeq]
      simp only [beq_eq_false_iff_ne, ne_eq, Bool.not_eq_true]
      intro hc
      exact hnm (by simpa [hc] using List.mem_map_of_mem Block.hash hx)
    have hperm := List.mergeSort_perm
      (removeLastRankEq (r.addProposedBlock b).1.notarizedBlocks
          (r.addProposedBlock b).2.1.roundRank
        ++ [(r.addProposedBlock b).2.1.setBlockNotarized]) weightGE
    have hranks : ((r.addProposedBlock b).1.notarizedBlocks.map
        Block.roundRank).Nodup := by
      rw [hnb]; exact g3
    refine ⟨?_, ?_, ?_⟩
    · unfold Round.AddNotarizedBlock
      simp only [hf]
    · unfold Round.AddNotarizedBlock
      simp only [hf]
      try dsimp only
      refine (hperm.map Block.hash).mem_iff.mpr ?_
      simp [hbeq]
    · unfold Round.AddNotarizedBlock
      simp only [hf]
      try dsimp only
      intro x hx hxr
      have hx2 := hperm.mem_iff.mp hx
      rcases List.mem_append.mp hx2 with hx2 | hx2
      · have := mem_removeLastRankEq_ne _ _ hranks x hx2
        rw [hbeq] at this
        exact absurd hxr this
      · rw [List.mem_singleton] at hx2
        rw [hx2, hbeq]
        rfl

/-- C10: `AddNotarizedBlock` first runs the block through
`addProposedBlock`, so after the call the block's hash is a proposed hash;
in every reachable state the notarized hashes are a subset of the proposed
hashes, and the proposed list is duplicate-free by hash and sorted by round
rank ascending — and stays so across `AddNotarizedBlock`. -/
theorem notarized_subset_proposed (r : Round) (h : Reachable r) :
    (∀ h2 ∈ r.notarizedBlocks.map Block.hash,
      h2 ∈ r.proposedBlocks.map Block.hash) ∧
    (r.proposedBlocks.map Block.hash).Nodup ∧
    r.proposedBlocks.Pairwise (fun a b => a.roundRank ≤ b.roundRank) ∧
    (∀ b : Block,
      b.hash ∈ (r.AddNotarizedBlock b).1.proposedBlocks.map Block.hash) ∧
    (∀ b : Block,
      ((r.AddNotarizedBlock b).1.proposedBlocks.map Block.hash).Nodup ∧
      (r.AddNotarizedBlock b).1.proposedBlocks.Pairwise
        (fun a c => a.roundRank ≤ c.roundRank) ∧
      ∀ h2 ∈ (r.AddNotarizedBlock b).1.notarizedBlocks.map Block.hash,
        h2 ∈ (r.AddNotarizedBlock b).1.proposedBlocks.map Block.hash) := by
  have hinv := Reachable_inv h
  obtain ⟨g1, g2, g3, g4, g5⟩ := hinv
  refine ⟨g5, g1, g2, ?_, ?_⟩
  · intro b
    rw [AddNotarizedBlock_proposed]
    exact addProposedBlock_hash_mem r b
  · intro b
    have hadd := AddNotarizedBlock_inv r b (Reachable_inv h)
    exact ⟨hadd.1, hadd.2.1, hadd.2.2.2.2⟩

/-- Block used by the rank-uniqueness witness. -/
def c6Block : Block :=
  { hash := "n1", round := 1, roundRank := 3, chainWeight := 7,
    verificationTickets := ["t1"], isNotarized := false }

/-- Witness for `notarized_ranks_unique`: notarizing a fresh block in a
fresh round succeeds and stores its hash. -/
theorem notarized_ranks_unique_witness :
    ((Round.new 1).AddNotarizedBlock c6Block).2.2 = true ∧
    c6Block.hash ∈
      ((Round.new 1).AddNotarizedBlock c6Block).1.notarizedBlocks.map
        Block.hash := by
  have h := (notarized_ranks_unique (Round.new 1) (Reachable.new 1)).2.2.2.2
    c6Block (by decide)
  exact ⟨h.1, h.2.1⟩

/-- Block used by the subset witness. -/
def c10Block : Block :=
  { hash := "n2", round := 2, roundRank := 5, chainWeight := 9,
    verificationTickets := [], isNotarized := false }

/-- Witness for `notarized_subset_proposed`: after notarizing a block in a
fresh round its hash is among the proposed hashes. -/
theorem notarized_subset_proposed_witness :
    c10Block.hash ∈
      ((Round.new 2).AddNotarizedBlock c10Block).1.proposedBlocks.map
        Block.hash :=
  (notarized_subset_proposed (Round.new 2) (Reachable.new 2)).2.2.2.1 c10Block

/-- The capped-doubling identity behind the backoff schedule. -/
theorem min_double_pow (delay t : Nat) :
    min (delay * 2 ^ (t + 1)) 1000 = min (min (2 * delay) 1000 * 2 ^ t) 1000 := by
  have hstep : delay * 2 ^ (t + 1) = 2 * delay * 2 ^ t := by ring
  rw [hstep]
  by_cases hd : 2 * delay ≤ 1000
  · rw [Nat.min_eq_left hd]
  · push_neg at hd
    rw [Nat.min_eq_right hd.le]
    have h2t : (1 : Nat) ≤ 2 ^ t := Nat.one_le_two_pow
    have h1 : 1000 ≤ 2 * delay * 2 ^ t := by
      calc (1000 : Nat) ≤ 2 * delay := hd.le
        _ ≤ 2 * delay * 2 ^ t := Nat.le_mul_of_pos_right _ (by omega)
    have h2 : 1000 ≤ 1000 * 2 ^ t := Nat.le_mul_of_pos_right _ (by omega)
    rw [Nat.min_eq_right h1, Nat.min_eq_right h2]

/-- The sleeps of one backoff episode follow the doubling schedule capped at
1000 ms: the `t`-th sleep is `min (delay * 2 ^ t) 1000`. -/
theorem insufficientWait_sleeps {R : Int} {env : GenEnv} {snap : Int} :
    ∀ (fuel delay i j : Nat) (c : Bool) (i2 j2 : Nat) (sleeps : List Nat),
      delay ≤ 1000 →
      insufficientWait R env snap fuel delay i j = some (c, i2, j2, sleeps) →
      sleeps = (List.range sleeps.length).map
        (fun t => min (delay * 2 ^ t) 1000) := by
  intro fuel
  induction fuel with
  | zero =>
      intro delay i j c i2 j2 sleeps _ h
      exact absurd h (by simp [insufficientWait])
  | succ fuel ih =>
      intro delay i j c i2 j2 sleeps hd h
      unfold insufficientWait at h
      by_cases h1 : env.txnCount j ≠ snap
      · rw [if_pos h1] at h
        simp only [Option.some_inj, Prod.mk.injEq] at h
        obtain ⟨hc, hi, hj, hs⟩ := h
        rw [← hs]
        rfl
      · rw [if_neg h1] at h
        by_cases h2 : env.curRound i > R
        · rw [if_pos h2] at h
          simp only [Option.some_inj, Prod.mk.injEq] at h
          obtain ⟨hc, hi, hj, hs⟩ := h
          rw [← hs]
          rfl
        · rw [if_neg h2] at h
          cases hrec : insufficientWait R env snap fuel (min (2 * delay) 1000)
              (i + 1) (j + 1) with
          | none => rw [hrec] at h; exact absurd h (by simp)
          | some res =>
              obtain ⟨c2, i2x, j2x, s2⟩ := res
              rw [hrec] at h
              simp only [Option.some_inj, Prod.mk.injEq] at h
              obtain ⟨hc, hi, hj, hs⟩ := h
              have hmin : min (2 * delay) 1000 ≤ 1000 := min_le_right _ _
              have ih2 := ih (min (2 * delay) 1000) (i + 1) (j + 1) c2 i2x j2x
                s2 hmin hrec
              rw [← hs, ih2]
              rw [List.length_cons, List.range_succ_eq_map, List.map_cons,
                List.map_map]
              have hlen : s2.length =
                  ((List.range s2.length).map
                    (fun t => min (min (2 * delay) 1000 * 2 ^ t) 1000)).length := by
                simp
              rw [← hlen]
              refine congrArg₂ _ ?_ ?_
              · have hone : delay * 2 ^ 0 = delay := by ring
                rw [hone, Nat.min_eq_left hd]
              · refine List.map_congr_left ?_
                intro t _
                simp only [Function.comp]
                rw [← min_double_pow]

/-- One backoff episode reads the transaction count once per iteration plus
the final one, aborts exactly on observing a round past `R`, and continues
exactly on observing a moved transaction count; all intermediate
observations show the snapshot count and a round at most `R`. -/
theorem insufficientWait_reads {R : Int} {env : GenEnv} {snap : Int} :
    ∀ (fuel delay i j : Nat) (c : Bool) (i2 j2 : Nat) (sleeps : List Nat),
      insufficientWait R env snap fuel delay i j = some (c, i2, j2, sleeps) →
      i2 = (if c then i + sleeps.length else i + sleeps.length + 1) ∧
      j2 = j + sleeps.length + 1 ∧
      (∀ t, t < sleeps.length →
        env.txnCount (j + t) = snap ∧ env.curRound (i + t) ≤ R) ∧
      (c = true → env.txnCount (j + sleeps.length) ≠ snap) ∧
      (c = false → env.txnCount (j + sleeps.length) = snap ∧
        env.curRound (i + sleeps.length) > R) := by
  intro fuel
  induction fuel with
  | zero =>
      intro delay i j c i2 j2 sleeps h
      exact absurd h (by simp [insufficientWait])
  | succ fuel ih =>
      intro delay i j c i2 j2 sleeps h
      unfold insufficientWait at h
      by_cases h1 : env.txnCount j ≠ snap
      · rw [if_pos h1] at h
        simp only [Option.some_inj, Prod.mk.injEq] at h
        obtain ⟨hc, hi, hj, hs⟩ := h
        subst hc
        rw [← hs]
        simp only [List.length_nil, Nat.add_zero, if_true]
        exact ⟨hi.symm, by omega, by omega, fun _ => h1, by simp⟩
      · rw [if_neg h1] at h
        push_neg at h1
        by_cases h2 : env.curRound i > R
        · rw [if_pos h2] at h
          simp only [Option.some_inj, Prod.mk.injEq] at h
          obtain ⟨hc, hi, hj, hs⟩ := h
          subst hc
          rw [← hs]
          simp only [List.length_nil, Nat.add_zero, Bool.false_eq_true,
            if_false]
          exact ⟨by omega, by omega, by omega, by simp, fun _ => ⟨h1, h2⟩⟩
        · rw [if_neg h2] at h
          cases hrec : insufficientWait R env snap fuel (min (2 * delay) 1000)
              (i + 1) (j + 1) with
          | none => rw [hrec] at h; exact absurd h (by simp)
          | some res =>
              obtain ⟨c2, i2x, j2x, s2⟩ := res
              rw [hrec] at h
              simp only [Option.some_inj, Prod.mk.injEq] at h
              obtain ⟨hc, hi, hj, hs⟩ := h
              obtain ⟨ki, kj, kmid, ktrue, kfalse⟩ :=
                ih (min (2 * delay) 1000) (i + 1) (j + 1) c2 i2x j2x s2 hrec
              rw [← hc, ← hi, ← hj, ← hs]
              simp only [List.length_cons]
              refine ⟨?_, by omega, ?_, ?_, ?_⟩
              · rcases c2 <;> simp only [if_true, if_false, Bool.false_eq_true] at ki ⊢ <;>
                  omega
              · intro t ht
                cases t with
                | zero =>
                    refine ⟨by simpa using h1, ?_⟩
                    have hle : env.curRound i ≤ R := not_lt.mp h2
                    simpa using hle
                | succ t =>
                    have hmid := kmid t (by omega)
                    have hjt : j + (t + 1) = j + 1 + t := by omega
                    have hit : i + (t + 1) = i + 1 + t := by omega
                    rw [hjt, hit]
                    exact hmid
              · intro hct
                have hk := ktrue hct
                have hjt : j + (s2.length + 1) = j + 1 + s2.length := by omega
                rw [hjt]
                exact hk
              · intro hcf
                obtain ⟨k1, k2⟩ := kfalse hcf
                have hjt : j + (s2.length + 1) = j + 1 + s2.length := by omega
                have hit : i + (s2.length + 1) = i + 1 + s2.length := by omega
                rw [hjt, hit]
                exact ⟨k1, k2⟩

/-- Round observations of the generation loop: a produced block means every
`mc.CurrentRound` read during the run observed a value at most `R`; a
`RoundMismatch` outcome means the very last round read observed a value past
`R`. -/
theorem GenerateRoundBlock_reads {R : Int} {env : GenEnv} :
    ∀ (fuel i j k : Nat) (out : GenOutcome) (i3 j3 k3 : Nat)
      (sleeps : List Nat),
      GenerateRoundBlock R env fuel i j k = some (out, i3, j3, k3, sleeps) →
      i ≤ i3 ∧
      (out = .block → ∀ m, i ≤ m → m < i3 → env.curRound m ≤ R) ∧
      (out = .roundMismatch → i < i3 ∧ env.curRound (i3 - 1) > R) := by
  intro fuel
  induction fuel with
  | zero =>
      intro i j k out i3 j3 k3 sleeps h
      exact absurd h (by simp [GenerateRoundBlock])
  | succ fuel ih =>
      intro i j k out i3 j3 k3 sleeps h
      unfold GenerateRoundBlock at h
      by_cases h1 : env.curRound i > R
      · rw [if_pos h1] at h
        simp only [Option.some_inj, Prod.mk.injEq] at h
        obtain ⟨ho, hi, hj, hk, hs⟩ := h
        refine ⟨by omega, ?_, ?_⟩
        · intro hb
          rw [← ho] at hb
          exact absurd hb (by simp)
        · intro _
          refine ⟨by omega, ?_⟩
          have hd : i3 - 1 = i := by omega
          rw [hd]
          exact h1
      · rw [if_neg h1] at h
        cases hg : env.gen k with
        | ok =>
            rw [hg] at h
            simp only at h
            by_cases h2 : env.curRound (i + 1) > R
            · rw [if_pos h2] at h
              simp only [Option.some_inj, Prod.mk.injEq] at h
              obtain ⟨ho, hi, hj, hk, hs⟩ := h
              refine ⟨by omega, ?_, ?_⟩
              · intro hb
                rw [← ho] at hb
                exact absurd hb (by simp)
              · intro _
                refine ⟨by omega, ?_⟩
                have hd : i3 - 1 = i + 1 := by omega
                rw [hd]
                exact h2
            · rw [if_neg h2] at h
              simp only [Option.some_inj, Prod.mk.injEq] at h
              obtain ⟨ho, hi, hj, hk, hs⟩ := h
              refine ⟨by omega, ?_, ?_⟩
              · intro _ m hm1 hm2
                have : m = i ∨ m = i + 1 := by omega
                rcases this with hme | hme <;> rw [hme]
                · exact not_lt.mp h1
                · exact not_lt.mp h2
              · intro hb
                rw [← ho] at hb
                exact absurd hb (by simp)
        | otherError =>
            rw [hg] at h
            simp only [Option.some_inj, Prod.mk.injEq] at h
            obtain ⟨ho, hi, hj, hk, hs⟩ := h
            refine ⟨by omega, ?_, ?_⟩
            · intro hb
              rw [← ho] at hb
              exact absurd hb (by simp)
            · intro hb
              rw [← ho] at hb
              exact absurd hb (by simp)
        | insufficientTxns =>
            rw [hg] at h
            simp only at h
            cases hrec : insufficientWait R env (env.txnCount j) fuel 128
                (i + 1) (j + 1) with
            | none => rw [hrec] at h; exact absurd h (by simp)
            | some res =>
                obtain ⟨c2, i2x, j2x, s2⟩ := res
                rw [hrec] at h
                obtain ⟨ki, kj, kmid, ktrue, kfalse⟩ :=
                  insufficientWait_reads fuel 128 (i + 1) (j + 1) c2 i2x j2x
                    s2 hrec
                cases c2 with
                | false =>
                    simp only [Option.some_inj, Prod.mk.injEq] at h
                    obtain ⟨ho, hi, hj, hk, hs⟩ := h
                    obtain ⟨k1, k2⟩ := kfalse rfl
                    simp only [Bool.false_eq_true, if_false] at ki
                    refine ⟨by omega, ?_, ?_⟩
                    · intro hb
                      rw [← ho] at hb
                      exact absurd hb (by simp)
                    · intro _
                      refine ⟨by omega, ?_⟩
                      have hd : i3 - 1 = i + 1 + s2.length := by omega
                      rw [hd]
                      exact k2
                | true =>
                    simp only at h
                    cases hrec2 : GenerateRoundBlock R env fuel i2x j2x
                        (k + 1) with
                    | none => rw [hrec2] at h; exact absurd h (by simp)
                    | some res2 =>
                        obtain ⟨out2, i3x, j3x, k3x, s3⟩ := res2
                        rw [hrec2] at h
                        simp only [Option.some_inj, Prod.mk.injEq] at h
                        obtain ⟨ho, hi, hj, hk, hs⟩ := h
                        obtain ⟨hle, hblock, hmis⟩ :=
                          ih i2x j2x (k + 1) out2 i3x j3x k3x s3 hrec2
                        simp only [if_true] at ki
                        refine ⟨by omega, ?_, ?_⟩
                        · intro hb m hm1 hm2
                          rw [← ho] at hb
                          by_cases hm3 : m < i2x
                          · have : m = i ∨ (i + 1 ≤ m ∧ m < i + 1 + s2.length) := by
                              omega
                            rcases this with hme | ⟨hma, hmb⟩
                            · rw [hme]
                              exact not_lt.mp h1
                            · have hmid := (kmid (m - (i + 1)) (by omega)).2
                              have hidx : i + 1 + (m - (i + 1)) = m := by omega
                              rw [hidx] at hmid
                              exact hmid
                          · exact hblock hb m (by omega) (by omega)
                        · intro hb
                          rw [← ho] at hb
                          obtain ⟨m1, m2⟩ := hmis hb
                          exact ⟨by omega, by rw [← hi]; exact m2⟩

/-- C8: the `GenerateRoundBlock` retry discipline.  First conjunct: the
capped-doubling schedule starting at 128 ms is 128, 256, 512, 1000, 1000, …
milliseconds.  Second conjunct: a backoff episode (entered on
`InsufficientTxns`, delay starting at 128 ms) sleeps exactly along that
schedule, keeps looping precisely while the transaction count still equals
the snapshot and the current round is at most the block's round `R`, exits
to retry exactly when the count moved, and aborts exactly when a read
observed `current_round > R`.  Third conjunct: whenever the loop returns a
block, every `CurrentRound` observation made during the run (before
generation, during the waits, after generation) was at most `R`, and
whenever it returns `RoundMismatch` the aborting observation was greater
than `R` — so no block is produced once `Chain.current_round > R` is
observed. -/
theorem GenerateRoundBlock_spec :
    ((List.range 5).map (fun t => min (128 * 2 ^ t) 1000)
        = [128, 256, 512, 1000, 1000]) ∧
    (∀ (R : Int) (env : GenEnv) (snap : Int) (fuel i j : Nat) (c : Bool)
        (i2 j2 : Nat) (sleeps : List Nat),
      insufficientWait R env snap fuel 128 i j = some (c, i2, j2, sleeps) →
      sleeps = (List.range sleeps.length).map
        (fun t => min (128 * 2 ^ t) 1000) ∧
      (∀ t, t < sleeps.length →
        env.txnCount (j + t) = snap ∧ env.curRound (i + t) ≤ R) ∧
      (c = true → env.txnCount (j + sleeps.length) ≠ snap) ∧
      (c = false → env.curRound (i + sleeps.length) > R)) ∧
    (∀ (R : Int) (env : GenEnv) (fuel i j k : Nat) (out : GenOutcome)
        (i3 j3 k3 : Nat) (sleeps : List Nat),
      GenerateRoundBlock R env fuel i j k = some (out, i3, j3, k3, sleeps) →
      (out = .block → ∀ m, i ≤ m → m < i3 → env.curRound m ≤ R) ∧
      (out = .roundMismatch → 1 ≤ i3 ∧ env.curRound (i3 - 1) > R)) := by
  refine ⟨by decide, ?_, ?_⟩
  · intro R env snap fuel i j c i2 j2 sleeps h
    obtain ⟨ki, kj, kmid, ktrue, kfalse⟩ :=
      insufficientWait_reads fuel 128 i j c i2 j2 sleeps h
    refine ⟨insufficientWait_sleeps fuel 128 i j c i2 j2 sleeps (by omega) h,
      kmid, ktrue, fun hc => (kfalse hc).2⟩
  · intro R env fuel i j k out i3 j3 k3 sleeps h
    obtain ⟨hle, hblock, hmis⟩ :=
      GenerateRoundBlock_reads fuel i j k out i3 j3 k3 sleeps h
    exact ⟨hblock, fun hb => ⟨by have := (hmis hb).1; omega, (hmis hb).2⟩⟩

/-- Environment of the generation witness: the transaction count moves from
5 to 6 at the third read, the current round never advances, and the first
generation attempt lacks transactions while the second succeeds. -/
def c8Env : GenEnv :=
  { curRound := fun _ => 0
    txnCount := fun n => if n < 3 then 5 else 6
    gen := fun n => if n = 0 then .insufficientTxns else .ok }

/-- Witness for `GenerateRoundBlock_spec`: in `c8Env` the run sleeps 128 ms
then 256 ms, retries once the pool count moves, and produces a block — so
every round observation was at most 0, and the recorded sleeps follow the
schedule. -/
theorem GenerateRoundBlock_spec_witness :
    c8Env.curRound 3 ≤ 0 ∧
    ([128, 256] : List Nat) =
      (List.range ([128, 256] : List Nat).length).map
        (fun t => min (128 * 2 ^ t) 1000) := by
  constructor
  · exact (GenerateRoundBlock_spec.2.2 0 c8Env 10 0 0 0 .block 5 5 2
      [128, 256] (by decide)).1 rfl 3 (by omega) (by omega)
  · exact (GenerateRoundBlock_spec.2.1 0 c8Env 5 9 1 1 true 3 4 [128, 256]
      (by decide)).1

end ZeroChain
